import Mathlib

/-!
Verification development for the invoice field-extraction pipeline of
`streamlit_app.py` (Controle_NFs).

Python strings are modelled as `List Char` (`PyStr`); Python string slicing
`s[i:j]` becomes `(s.drop i).take (j - i)`, `str.find` becomes `pyFind`,
`str.upper()`/`str.lower()` become character-wise maps over the Latin-1
repertoire (CPython's `str.upper` agrees character-wise on ASCII and the
Portuguese accented letters used by the keyword tables; multi-character
expansions such as ß→SS are outside the repertoire exercised here),
`str.strip()` strips the whitespace characters listed in `isPySpace`, and
`str.splitlines()` is `pySplitlines` with the CPython line-boundary set.

The regular expressions of the source (CNPJ_RE, DATE_RE, VAL_RE and the
item-line patterns) are embedded as executable matchers over `PyStr`.  Each
matcher is written as a deterministic greedy parser; determinism is justified
pattern-by-pattern in the doc comments: wherever the source pattern has a
greedy quantifier, the character class of the quantified part is disjoint
from the class of the required following part, so Python's backtracking can
never succeed where the greedy parse fails, and the greedy parse returns
exactly Python's match.
-/

abbrev PyStr := List Char

/-- ASCII decimal digit, the `[0-9]`/`\d` class of the source regexes. -/
def isDigitC (c : Char) : Bool := decide (48 ≤ c.toNat ∧ c.toNat ≤ 57)

/-- Numeric value of a decimal digit character. -/
def digitVal (c : Char) : Nat := c.toNat - 48

/-- Whitespace as recognised by Python's `str.strip()` and the regex `\s`
class, restricted to the characters that occur in fiscal-document text:
space, tab, LF, CR, vertical tab, form feed and NBSP. -/
def isPySpace (c : Char) : Bool :=
  decide (c = ' ' ∨ c = '\t' ∨ c = '\n' ∨ c = '\r' ∨ c = '\x0b' ∨ c = '\x0c' ∨ c = '\xa0')

/-- Character-wise model of `str.upper()` on ASCII and Latin-1 letters
(maps a–z and à–þ except ÷ up by 32 code points, covering Ã, Ç, É, Õ …). -/
def pyUpperChar (c : Char) : Char :=
  if 97 ≤ c.toNat ∧ c.toNat ≤ 122 then Char.ofNat (c.toNat - 32)
  else if 224 ≤ c.toNat ∧ c.toNat ≤ 254 ∧ c.toNat ≠ 247 then Char.ofNat (c.toNat - 32)
  else c

/-- Character-wise model of `str.lower()` on ASCII and Latin-1 letters. -/
def pyLowerChar (c : Char) : Char :=
  if 65 ≤ c.toNat ∧ c.toNat ≤ 90 then Char.ofNat (c.toNat + 32)
  else if 192 ≤ c.toNat ∧ c.toNat ≤ 222 ∧ c.toNat ≠ 215 then Char.ofNat (c.toNat + 32)
  else c

/-- `text.upper()`. -/
def pyUpper (cs : PyStr) : PyStr := cs.map pyUpperChar

/-- `text.lower()`. -/
def pyLower (cs : PyStr) : PyStr := cs.map pyLowerChar

/-- `s.strip()`: drop the whitespace of `isPySpace` from both ends. -/
def pyStrip (cs : PyStr) : PyStr :=
  ((cs.dropWhile isPySpace).reverse.dropWhile isPySpace).reverse

/-- `hay.find(needle)` restricted to found/not-found plus the index:
Python returns -1 when absent, which call sites only compare with -1. -/
def pyFindAux (needle : PyStr) : PyStr → Nat → Option Nat
  | hay, i =>
    if needle.isPrefixOf hay then some i
    else match hay with
      | [] => none
      | _ :: t => pyFindAux needle t (i + 1)

def pyFind (hay needle : PyStr) : Option Nat := pyFindAux needle hay 0

/-- Python's `needle in hay` substring test. -/
def pyContains (hay needle : PyStr) : Bool := (pyFind hay needle).isSome

/-- `path.endswith(suffix)`. -/
def pyEndsWith (s suffix : PyStr) : Bool := suffix.isSuffixOf s

/-- CPython line boundaries recognised by `str.splitlines()`. -/
def isLineBreak (c : Char) : Bool :=
  decide (c = '\n' ∨ c = '\r' ∨ c = '\x0b' ∨ c = '\x0c' ∨ c = '\x1c' ∨ c = '\x1d' ∨
    c = '\x1e' ∨ c = '\x85' ∨ c = ' ' ∨ c = ' ')

def splitlinesAux : PyStr → PyStr → List PyStr
  | [], acc => [acc.reverse]
  | '\r' :: '\n' :: t, acc => acc.reverse :: splitlinesAux t []
  | c :: t, acc =>
    if isLineBreak c then acc.reverse :: splitlinesAux t []
    else splitlinesAux t (c :: acc)

/-- `text.splitlines()`: `\r\n` is a single boundary; a trailing boundary
adds no empty final line; the empty string yields no lines. -/
def pySplitlines (cs : PyStr) : List PyStr :=
  if cs = [] then [] else splitlinesAux cs []

/-! ### Greedy matcher building blocks

A matcher consumes a prefix of the input and returns `(consumed, rest)`. -/

/-- Greedy `X*` over a character class: consume the maximal run. -/
def pStar0 (p : Char → Bool) (cs : PyStr) : PyStr × PyStr :=
  (cs.takeWhile p, cs.dropWhile p)

/-- Greedy bounded repetition `X{lo,hi}` over a character class: consume the
maximal run capped at `hi`, fail if fewer than `lo` characters match. -/
def pTakeRange (p : Char → Bool) (lo hi : Nat) (cs : PyStr) : Option (PyStr × PyStr) :=
  let t := (cs.takeWhile p).take hi
  if lo ≤ t.length then some (t, cs.drop t.length) else none

/-- A single mandatory character from a class. -/
def pChar1 (p : Char → Bool) : PyStr → Option (PyStr × PyStr)
  | [] => none
  | c :: t => if p c then some ([c], t) else none

/-- A greedy optional character from a class, `X?`. -/
def pOptChar (p : Char → Bool) : PyStr → PyStr × PyStr
  | [] => ([], [])
  | c :: t => if p c then ([c], t) else ([], c :: t)

/-- Scan the input left to right (as `re.search` does) and return the first
position where the matcher succeeds, as `(consumed, rest-after-match)`. -/
def scanSplit (m : PyStr → Option (PyStr × PyStr)) : PyStr → Option (PyStr × PyStr)
  | [] => m []
  | c :: t =>
    match m (c :: t) with
    | some gr => some gr
    | none => scanSplit m t

/-- `re.search` returning only the matched/captured text. -/
def scanFor (m : PyStr → Option (PyStr × PyStr)) (cs : PyStr) : Option PyStr :=
  (scanSplit m cs).map (·.1)

/-! ### CNPJ_RE

Source (line 191):
`(?:CNPJ[:\s]|C.?NPJ[:\s]|CNPJ\s*)?([0-9]{2}[-.\/]?[0-9]{3}[-.\/]?[0-9]{3}[-\/]?[0-9]{4}[-]?[0-9]{2})`

Only group 1 is ever used (`m.group(1)`).  The optional non-capturing prefix
consists of the letters C/N/P/J, at most one arbitrary character, and a
colon/space tail — none of which can begin the all-digit group — so the first
full-pattern match captures exactly the first position at which the bare
group pattern matches, and the embedding scans for the group directly.
Each optional separator `[-.\/]?`/`[-]?` is greedy and its class is disjoint
from `[0-9]`, so backtracking over it can never turn a failure into a match:
the deterministic parse below returns exactly Python's group 1. -/

def isSepDotSlashDash (c : Char) : Bool := decide (c = '.' ∨ c = '/' ∨ c = '-')

def isSepSlashDash (c : Char) : Bool := decide (c = '/' ∨ c = '-')

def isDashC (c : Char) : Bool := decide (c = '-')

def cnpjBodyAt (cs : PyStr) : Option (PyStr × PyStr) := do
  let (a, r1) ← pTakeRange isDigitC 2 2 cs
  let (s1, r2) := pOptChar isSepDotSlashDash r1
  let (b, r3) ← pTakeRange isDigitC 3 3 r2
  let (s2, r4) := pOptChar isSepDotSlashDash r3
  let (c3, r5) ← pTakeRange isDigitC 3 3 r4
  let (s3, r6) := pOptChar isSepSlashDash r5
  let (d, r7) ← pTakeRange isDigitC 4 4 r6
  let (s4, r8) := pOptChar isDashC r7
  let (e, r9) ← pTakeRange isDigitC 2 2 r8
  return (a ++ s1 ++ b ++ s2 ++ c3 ++ s3 ++ d ++ s4 ++ e, r9)

/-- Lines 219-221: `m = CNPJ_RE.search(text); out["cnpj"] = m.group(1) if m else None`. -/
def extract_cnpj (text : PyStr) : Option PyStr := scanFor cnpjBodyAt text

/-! ### DATE_RE

Source (line 195):
`(?:DATA(?:\s*DE\s*EMISSÃO)?[:\s]*|EMISSÃO[:\s]*|DATA/HORA[:\s]*|DATA[:\s]*|DATE[:\s]*)?`
`(\d{1,2}[-\/]\d{1,2}[-\/]\d{2,4}(?:\s+\d{1,2}:\d{1,2}(?::\d{1,2})?)?|\d{4}-\d{1,2}-\d{1,2})`

Only group 1 is used.  The optional keyword prefix contains no digit, so no
position inside a consumed prefix can begin group 1, and the first
full-pattern match captures the date at the first position where the date
alternation itself matches; the embedding scans for the alternation
directly.  Greedy determinism: every `\d{..}` repetition is followed either
by a separator class (`[-\/]`, `:`) or by `\s`, all disjoint from `\d`, and
the final repetitions are followed only by optional parts, so shortening a
greedy run can never repair a failure. -/

/-- The optional time tail `(?:\s+\d{1,2}:\d{1,2}(?::\d{1,2})?)?`: total,
consuming nothing when the tail does not match. -/
def pOptTime (cs : PyStr) : PyStr × PyStr :=
  match (do
    let (w, r1) ← pTakeRange isPySpace 1 cs.length cs
    let (h, r2) ← pTakeRange isDigitC 1 2 r1
    let (c1, r3) ← pChar1 (fun c => decide (c = ':')) r2
    let (mi, r4) ← pTakeRange isDigitC 1 2 r3
    let secs : PyStr × PyStr :=
      match (do
        let (c2, r5) ← pChar1 (fun c => decide (c = ':')) r4
        let (s2, r6) ← pTakeRange isDigitC 1 2 r5
        return (c2 ++ s2, r6) : Option (PyStr × PyStr)) with
      | some x => x
      | none => ([], r4)
    return (w ++ h ++ c1 ++ mi ++ secs.1, secs.2) : Option (PyStr × PyStr)) with
  | some x => x
  | none => ([], cs)

/-- First alternative of group 1: `\d{1,2}[-\/]\d{1,2}[-\/]\d{2,4}(?:time)?`. -/
def dmyAt (cs : PyStr) : Option (PyStr × PyStr) := do
  let (d1, r1) ← pTakeRange isDigitC 1 2 cs
  let (s1, r2) ← pChar1 isSepSlashDash r1
  let (d2, r3) ← pTakeRange isDigitC 1 2 r2
  let (s2, r4) ← pChar1 isSepSlashDash r3
  let (y, r5) ← pTakeRange isDigitC 2 4 r4
  let (tm, r6) := pOptTime r5
  return (d1 ++ s1 ++ d2 ++ s2 ++ y ++ tm, r6)

/-- Second alternative of group 1: `\d{4}-\d{1,2}-\d{1,2}`. -/
def ymdAt (cs : PyStr) : Option (PyStr × PyStr) := do
  let (y, r1) ← pTakeRange isDigitC 4 4 cs
  let (h1, r2) ← pChar1 isDashC r1
  let (mo, r3) ← pTakeRange isDigitC 1 2 r2
  let (h2, r4) ← pChar1 isDashC r3
  let (d, r5) ← pTakeRange isDigitC 1 2 r4
  return (y ++ h1 ++ mo ++ h2 ++ d, r5)

/-- Group 1 of DATE_RE at a fixed position (alternatives in source order). -/
def dateBodyAt (cs : PyStr) : Option (PyStr × PyStr) :=
  match dmyAt cs with
  | some x => some x
  | none => ymdAt cs

/-- `DATE_RE.search(text)` returning group 1. -/
def dateSearch (text : PyStr) : Option PyStr := scanFor dateBodyAt text

/-- Lines 277: the keyword table of the date extraction. -/
def date_keywords : List PyStr :=
  ["DATA DE EMISSÃO".data, "EMISSÃO".data, "DATA/HORA".data, "DATA".data, "DATE".data]

/-- Lines 278-285: for each keyword in order, `idx = text.upper().find(kw)`;
when found, search `text[idx:idx+60]` for a date and stop at the first hit. -/
def kwDateLoop : List PyStr → PyStr → Option PyStr
  | [], _ => none
  | kw :: rest, text =>
    match pyFind (pyUpper text) kw with
    | none => kwDateLoop rest text
    | some idx =>
      match dateSearch ((text.drop idx).take 60) with
      | some d => some d
      | none => kwDateLoop rest text

/-- Lines 276-288: keyword-anchored date search with whole-text fallback. -/
def extract_data_compra (text : PyStr) : Option PyStr :=
  match kwDateLoop date_keywords text with
  | some d => some d
  | none => dateSearch text

/-! ### VAL_RE and monetary normalization

Source (line 193): `R\$?\s*(\d{1,3}(?:\.\d{3})*(?:,\d{2})|\d+,\d{2})`.
`findall` returns the group-1 strings of the non-overlapping matches in
order; `search` returns the first.  Greedy determinism: in the first
alternative the digit run is followed by `.` or `,`, each thousands block is
exactly `.` plus three digits and is followed by `.` or `,`, and in the
second alternative the digit run is followed by `,` — all disjoint from
`\d` — so no backtracking into a greedy run can create a match the greedy
parse misses. -/

/-- Greedy `(?:\.\d{3})*`: each repetition is a dot followed by exactly
three digits. -/
def pThousands : PyStr → PyStr × PyStr
  | '.' :: a :: b :: c :: rest =>
    if isDigitC a ∧ isDigitC b ∧ isDigitC c then
      let more := pThousands rest
      ('.' :: a :: b :: c :: more.1, more.2)
    else ([], '.' :: a :: b :: c :: rest)
  | cs => ([], cs)

/-- Group 1 of VAL_RE at a fixed position. -/
def valGroupAt (cs : PyStr) : Option (PyStr × PyStr) :=
  match (do
    let (a, r1) ← pTakeRange isDigitC 1 3 cs
    let (ms, r2) := pThousands r1
    let (cm, r3) ← pChar1 (fun c => decide (c = ',')) r2
    let (b, r4) ← pTakeRange isDigitC 2 2 r3
    return (a ++ ms ++ cm ++ b, r4) : Option (PyStr × PyStr)) with
  | some x => some x
  | none => do
    let (a, r1) ← pTakeRange isDigitC 1 cs.length cs
    let (cm, r2) ← pChar1 (fun c => decide (c = ',')) r1
    let (b, r3) ← pTakeRange isDigitC 2 2 r2
    return (a ++ cm ++ b, r3)

/-- The full VAL_RE at a fixed position: `R`, optional `$`, greedy `\s*`,
then group 1; returns `(group 1, rest after the match)`. -/
def valMatchAt (cs : PyStr) : Option (PyStr × PyStr) := do
  let (_, r1) ← pChar1 (fun c => decide (c = 'R')) cs
  let (_, r2) := pOptChar (fun c => decide (c = '$')) r1
  let (_, r3) := pStar0 isPySpace r2
  valGroupAt r3

/-- `VAL_RE.search(text)` returning group 1. -/
def valSearch (text : PyStr) : Option PyStr := scanFor valMatchAt text

/-- `VAL_RE.findall(text)`: repeated search, resuming after each match.
Each match consumes at least one character, so `text.length` steps of fuel
always suffice. -/
def valFindAllAux : Nat → PyStr → List PyStr
  | 0, _ => []
  | fuel + 1, cs =>
    match scanSplit valMatchAt cs with
    | none => []
    | some (g, r) => g :: valFindAllAux fuel r

def valFindAll (text : PyStr) : List PyStr := valFindAllAux (text.length + 1) text

/-! ### Python float values and `float(str)`

`float()` results are modelled exactly over `ℚ` plus the special values the
string constructor can produce; decimal-literal parsing is exact in CPython
up to binary rounding, which no claim distinguishes. -/

inductive PyFloat
  | fin (q : ℚ)
  | inf
  | ninf
  | nan
deriving DecidableEq

/-- A digit group as accepted by CPython's float parsing: digits with single
underscores strictly between digits.  Accumulates `(value, digit count,
rest)`; `pend` records an underscore waiting for the digit that must follow
it (a dangling underscore is returned unconsumed). -/
def parseDigRunAux (v n : Nat) (pend : Bool) : PyStr → Nat × Nat × PyStr
  | [] => if pend then (v, n, ['_']) else (v, n, [])
  | c :: rest =>
    if isDigitC c then parseDigRunAux (10 * v + digitVal c) (n + 1) false rest
    else if pend then (v, n, '_' :: c :: rest)
    else if c = '_' then parseDigRunAux v n true rest
    else (v, n, c :: rest)

def parseDigRun : PyStr → Option (Nat × Nat × PyStr)
  | [] => none
  | c :: rest =>
    if isDigitC c then some (parseDigRunAux (digitVal c) 1 false rest) else none

/-- Decimal value of a digit string, with an explicit accumulator matching
the accumulation of `parseDigRunAux`. -/
def digitsValAux (v : Nat) : PyStr → Nat
  | [] => v
  | c :: rest => digitsValAux (10 * v + digitVal c) rest

def digitsVal (cs : PyStr) : Nat := digitsValAux 0 cs

/-- The exact rational value `sign * (intpart + fracpart/10^fc) * 10^e` of a
parsed float literal, computed through `Rat.divInt` over integer arithmetic;
`floatVal_eq` below restates it in that textbook form. -/
def floatVal (neg : Bool) (iv fv fc : Nat) (e : Int) : ℚ :=
  let mant : Int := (if neg then -1 else 1) * ((iv : Int) * 10 ^ fc + (fv : Int))
  if 0 ≤ e then Rat.divInt (mant * 10 ^ e.toNat) (10 ^ fc)
  else Rat.divInt mant ((10 : Int) ^ fc * 10 ^ (-e).toNat)

/-- Exponent-and-end phase of `float(str)`: after mantissa digits, accept an
optional `e`/`E` exponent and require the string to be exhausted. -/
def floatFinish (neg : Bool) (iv fv fc : Nat) (r : PyStr) : Option PyFloat :=
  let mk : Int → PyFloat := fun e => .fin (floatVal neg iv fv fc e)
  match r with
  | [] => some (mk 0)
  | c :: r1 =>
    if c = 'e' ∨ c = 'E' then
      let es : Bool × PyStr :=
        if r1.head? = some '+' then (false, r1.tail)
        else if r1.head? = some '-' then (true, r1.tail)
        else (false, r1)
      match parseDigRun es.2 with
      | some (ev, _, r3) =>
        if r3 = [] then some (mk (if es.1 then -(ev : Int) else (ev : Int))) else none
      | none => none
    else none

/-- CPython's `float(str)`: strip whitespace, optional sign, then either an
infinity/nan keyword (case-insensitive) or `digits [. digits] [exponent]`
with at least one digit; anything else raises `ValueError`, modelled as
`none`.  (Overflow of huge finite literals to `inf` is not modelled; no
claim exercises it.) -/
def pyFloatOfStr (cs : PyStr) : Option PyFloat :=
  let s := pyStrip cs
  let sgn : Bool × PyStr :=
    if s.head? = some '+' then (false, s.tail)
    else if s.head? = some '-' then (true, s.tail)
    else (false, s)
  let neg := sgn.1
  let s1 := sgn.2
  let low := s1.map pyLowerChar
  if low = "inf".data ∨ low = "infinity".data then some (if neg then .ninf else .inf)
  else if low = "nan".data then some .nan
  else
    match parseDigRun s1 with
    | some (iv, _, r1) =>
      match r1 with
      | '.' :: r2 =>
        match parseDigRun r2 with
        | some (fv, fc, r3) => floatFinish neg iv fv fc r3
        | none => floatFinish neg iv 0 0 r2
      | _ => floatFinish neg iv 0 0 r1
    | none =>
      match s1 with
      | '.' :: r2 =>
        match parseDigRun r2 with
        | some (fv, fc, r3) => floatFinish neg 0 fv fc r3
        | none => none
      | _ => none

/-- Lines 203-205 of `normalize_money`: global `re.sub("[Rr]\$?\s*", "", s)`
(every `R`/`r`, an optional `$`, then a greedy whitespace run, removed), then
drop every `.`, then turn each `,` into `.`. -/
def subMoneyAux : PyStr → Nat → PyStr
  | [], _ => []
  | c :: rest, mode =>
    if mode = 1 ∧ c = '$' then subMoneyAux rest 2
    else if 1 ≤ mode ∧ isPySpace c then subMoneyAux rest 2
    else if c = 'R' ∨ c = 'r' then subMoneyAux rest 1
    else c :: subMoneyAux rest 0

def pySubMoneyR (cs : PyStr) : PyStr := subMoneyAux cs 0

def moneyTransform (s : PyStr) : PyStr :=
  ((pySubMoneyR (pyStrip s)).filter (fun c => decide (c ≠ '.'))).map
    (fun c => if c = ',' then '.' else c)

/-- Lines 199-209: `normalize_money`. -/
def normalize_money (s : PyStr) : Option PyFloat :=
  if s = [] then none else pyFloatOfStr (moneyTransform s)

/-- IEEE `<` on modelled float values (as used by Python's `max`). -/
def pyLt : PyFloat → PyFloat → Bool
  | .fin a, .fin b => decide (a < b)
  | .fin _, .inf => true
  | .ninf, .fin _ => true
  | .ninf, .inf => true
  | _, _ => false

/-- Python's `max(list)`: keep the running value unless the next compares
strictly greater. -/
def pyMaxList : List PyFloat → Option PyFloat
  | [] => none
  | x :: xs => some (xs.foldl (fun acc y => if pyLt acc y then y else acc) x)

/-- Line 311: the total-label keyword table, in priority order. -/
def total_keywords : List PyStr :=
  ["VALOR TOTAL".data, "TOTAL DA NOTA".data, "TOTAL GERAL".data, "TOTAL A PAGAR".data,
   "TOTAL A RECEBER".data, "SUBTOTAL".data]

/-- Lines 311-320: for each keyword in order, `idx = text.upper().find(kw)`;
when found, search `text[idx:idx+150]` for a currency value; keep the first
one that also normalizes to a number. -/
def kwTotalLoop : List PyStr → PyStr → Option PyFloat
  | [], _ => none
  | kw :: rest, text =>
    match pyFind (pyUpper text) kw with
    | none => kwTotalLoop rest text
    | some idx =>
      match valSearch ((text.drop idx).take 150) with
      | none => kwTotalLoop rest text
      | some g =>
        match normalize_money g with
        | none => kwTotalLoop rest text
        | some v => some v

/-- Lines 309-330: keyword-anchored total, else the maximum of every
normalized currency-shaped number in the whole text. -/
def extract_valor_total (text : PyStr) : Option PyFloat :=
  match kwTotalLoop total_keywords text with
  | some v => some v
  | none => pyMaxList ((valFindAll text).filterMap normalize_money)

/-- Modelled from the spec, for comparison with the code: a "currency-shaped
number" in the spec's sense — an optional `R`/`R$` currency marker with
spacing, followed by the numeric body of VAL_RE, spanning the whole token. -/
def currencyShaped (s : PyStr) : Bool :=
  let body : PyStr → Bool := fun t =>
    match valGroupAt t with
    | some (_, []) => true
    | _ => false
  body s ||
    (match s with
     | 'R' :: r1 =>
       let r2 := (pOptChar (fun c => decide (c = '$')) r1).2
       body ((pStar0 isPySpace r2).2)
     | _ => false)

/-! ### Item-line scanning (lines 373-427)

`line_clean = line.strip()`, `line_upper = line_clean.upper()`; keyword tests
are substring tests on `line_upper`. -/

def isAsciiAlpha (c : Char) : Bool :=
  decide ((65 ≤ c.toNat ∧ c.toNat ≤ 90) ∨ (97 ≤ c.toNat ∧ c.toNat ≤ 122))

/-- `\d+,\d{2}` at a fixed position (digit run and `,` are disjoint classes,
so the greedy parse is exact). -/
def commaMoneyAt (cs : PyStr) : Option (PyStr × PyStr) := do
  let (a, r1) ← pTakeRange isDigitC 1 cs.length cs
  let (cm, r2) ← pChar1 (fun c => decide (c = ',')) r1
  let (b, r3) ← pTakeRange isDigitC 2 2 r2
  return (a ++ cm ++ b, r3)

/-- `\d+\.\d{2}` at a fixed position. -/
def dotMoneyAt (cs : PyStr) : Option (PyStr × PyStr) := do
  let (a, r1) ← pTakeRange isDigitC 1 cs.length cs
  let (d, r2) ← pChar1 (fun c => decide (c = '.')) r1
  let (b, r3) ← pTakeRange isDigitC 2 2 r2
  return (a ++ d ++ b, r3)

/-- `re.search(r"\d+,\d{2}|\d+\.\d{2}", line)`. -/
def hasMoneyNum (cs : PyStr) : Bool :=
  (scanSplit (fun u => match commaMoneyAt u with
    | some x => some x
    | none => dotMoneyAt u) cs).isSome

/-- `re.search(r"[a-zA-Z]{5,}", line)`: a run of five consecutive letters. -/
def hasAlphaRun5 (cs : PyStr) : Bool :=
  (scanSplit (fun u => pTakeRange isAsciiAlpha 5 5 u) cs).isSome

/-! The second item criterion (line 417):
`^\d+(\s*[X\*x]\s*)?\d*\s*(?:UN|QTDE|PÇ|KG|LT|M)\s*[a-zA-Z0-9\s]+?\s+\d+,\d{2}|\d+\.\d{2}`
— an alternation whose first branch is anchored at the line start and whose
second branch is a free search for `\d+\.\d{2}`.  It is used only truthily,
so the embedding decides match existence: the leading `\d+`/`\d*` pair with
an optional `\s*[Xx*]\s*` between them is equivalent (for existence) to the
maximal digit run followed by an optional X-part and another maximal run,
and the lazy `[a-zA-Z0-9\s]+?` followed by `\s+\d+,\d{2}` is equivalent to
some nonempty split point into an all-`[a-zA-Z0-9\s]` block (which absorbs
the preceding `\s*`) followed by `\s+\d+,\d{2}`. -/

def unit_words : List PyStr :=
  ["UN".data, "QTDE".data, "PÇ".data, "KG".data, "LT".data, "M".data]

def isXstarC (c : Char) : Bool := decide (c = 'X' ∨ c = '*' ∨ c = 'x')

def isMixedANS (c : Char) : Bool := isAsciiAlpha c || isDigitC c || isPySpace c

/-- Prefix test for `\s+\d+,\d{2}`. -/
def tailMoney (cs : PyStr) : Bool :=
  (do
    let (_, r1) ← pTakeRange isPySpace 1 cs.length cs
    let (_, r2) ← pTakeRange isDigitC 1 r1.length r1
    let (_, r3) ← pChar1 (fun c => decide (c = ',')) r2
    let (_, r4) ← pTakeRange isDigitC 2 2 r3
    return ((), r4) : Option (Unit × PyStr)).isSome

/-- Existence of a split realizing `\s*[a-zA-Z0-9\s]+?\s+\d+,\d{2}`. -/
def condBTailFrom (rest : PyStr) : Bool :=
  (List.range (rest.length + 1)).any (fun j =>
    decide (1 ≤ j) && (rest.take j).all isMixedANS && tailMoney (rest.drop j))

/-- `\s*[X\*x]\s*`, returning the rest when the X-part is present. -/
def xPartAfter (cs : PyStr) : Option PyStr :=
  match (pStar0 isPySpace cs).2 with
  | c :: t => if isXstarC c then some (pStar0 isPySpace t).2 else none
  | [] => none

/-- `\d*\s*(?:UN|QTDE|PÇ|KG|LT|M)` and then the tail, from a given point. -/
def condB1After (cs : PyStr) : Bool :=
  let r1 := (pStar0 isDigitC cs).2
  let r2 := (pStar0 isPySpace r1).2
  unit_words.any (fun u => u.isPrefixOf r2 && condBTailFrom (r2.drop u.length))

/-- The anchored first branch of the second item criterion. -/
def condB1 (cs : PyStr) : Bool :=
  match pTakeRange isDigitC 1 cs.length cs with
  | none => false
  | some (_, r1) =>
    condB1After r1 ||
      (match xPartAfter r1 with
       | some r2 => condB1After r2
       | none => false)

/-- The whole second item criterion. -/
def condQtyPattern (cs : PyStr) : Bool :=
  condB1 cs || (scanSplit dotMoneyAt cs).isSome

/-- Lines 415-419: `is_potential_item` on the stripped line. -/
def is_potential_item (lc : PyStr) : Bool :=
  (hasMoneyNum lc && lc.any isAsciiAlpha && decide (5 < lc.length)) ||
  condQtyPattern lc ||
  (hasAlphaRun5 lc && lc.any isDigitC && decide (10 < lc.length))

/-- Lines 376-384: keyword block-list for non-item lines. -/
def ignore_keywords_items : List PyStr :=
  ["SUBTOTAL".data, "TOTAL".data, "IMPOSTOS".data, "ICMS".data, "ISS".data,
   "DESCONTO".data, "VALOR TOTAL".data, "TOTAL DA NOTA".data,
   "FORMA DE PAGAMENTO".data, "TROCO".data, "CRÉDITO".data, "DÉBITO".data,
   "DINHEIRO".data, "VALOR".data, "CPF DO CONSUMIDOR".data, "CNPJ".data,
   "IE".data, "CUPOM FISCAL".data, "SAT NO".data, "NOTA FISCAL".data,
   "LANÇAMENTO".data, "DATA".data, "CÓDIGO".data, "UNIDADE".data, "QTD".data,
   "PRODUTO".data, "DESCRIÇÃO".data, "VALOR UNITÁRIO".data, "VALOR TOTAL".data,
   "CLIENTE".data, "CONSUMIDOR".data, "ENDEREÇO".data, "BAIRRO".data,
   "CIDADE".data, "CEP".data, "CONTATO".data, "TELEFONE".data,
   "CNPJ/CPF".data, "CPF/CNPJ".data, "IEST".data,
   "DISCRIMINAÇÃO DOS SERVIÇOS".data, "TOTAL DO SERVIÇO".data,
   "PRESTADOR DE SERVIÇOS".data, "TOMADOR DE SERVIÇOS".data]

/-- Lines 386-388: keywords opening the item section. -/
def start_keywords : List PyStr :=
  ["ITENS".data, "DESCRIÇÃO".data, "PRODUTOS E SERVIÇOS".data,
   "DETALHES DA VENDA".data, "CUPOM FISCAL".data, "NOTA FISCAL".data,
   "DISCRIMINAÇÃO".data, "VALOR TOTAL DO SERVIÇO".data,
   "SERVIÇOS PRESTADOS".data, "ITEM".data, "QTD".data, "UN".data, "VALOR".data]

/-- Lines 389-391: keywords closing the item section. -/
def end_keywords : List PyStr :=
  ["VALOR TOTAL".data, "SUBTOTAL".data, "TOTAL A PAGAR".data,
   "FORMAS DE PAGAMENTO".data, "OBSERVAÇÕES".data,
   "INFORMAÇÕES ADICIONAIS".data, "PAGAMENTO".data, "TOTAL GERAL".data,
   "DADOS BANCÁRIOS".data, "IMPOSTOS".data, "TOTAL LIQUIDO".data]

/-- Line 401: a line opens the item section when a start keyword occurs in
its stripped uppercase form and the stripped line is shorter than 100. -/
def isStartLine (line : PyStr) : Bool :=
  start_keywords.any (fun kw => pyContains (pyUpper (pyStrip line)) kw) &&
    decide ((pyStrip line).length < 100)

/-- Line 408: a line closes the item section when an end keyword occurs. -/
def isEndLine (line : PyStr) : Bool :=
  end_keywords.any (fun kw => pyContains (pyUpper (pyStrip line)) kw)

/-- Lines 421-424: a line inside the section is captured when it satisfies
`is_potential_item` and carries no ignore keyword. -/
def isItemKeep (line : PyStr) : Bool :=
  is_potential_item (pyStrip line) &&
    !(ignore_keywords_items.any (fun kw => pyContains (pyUpper (pyStrip line)) kw))

/-- The spec's three scanning states.  The loop of lines 393-424 realizes
them as the boolean `in_items_section` plus `break` (an absorbing stop). -/
inductive ScanState
  | beforeItems
  | inItems
  | doneItems
deriving DecidableEq

def stepState : ScanState → PyStr → ScanState
  | .beforeItems, l => if isStartLine l then .inItems else .beforeItems
  | .inItems, l => if isEndLine l then .doneItems else .inItems
  | .doneItems, _ => .doneItems

/-- A line is captured only in the in-items state, when it is not the
closing line itself and passes the item filter; the line that opens the
section is skipped by the loop's `continue`. -/
def capturesLine : ScanState → PyStr → Bool
  | .inItems, l => !isEndLine l && isItemKeep l
  | _, _ => false

/-- The scanning loop of lines 393-424 as a state-machine fold; `break`
corresponds to the absorbing `doneItems` state, which captures nothing. -/
def scanItems : ScanState → List PyStr → List PyStr
  | _, [] => []
  | s, l :: ls =>
    (if capturesLine s l then [pyStrip l] else []) ++ scanItems (stepState s l) ls

def stateRank : ScanState → Nat
  | .beforeItems => 0
  | .inItems => 1
  | .doneItems => 2

/-- `"\n".join`. -/
def joinNL : List PyStr → PyStr
  | [] => []
  | [x] => x
  | x :: y :: xs => x ++ '\n' :: joinNL (y :: xs)

/-- The captured item lines that reach the output: `items[:40]`. -/
def itemLines (text : PyStr) : List PyStr :=
  (scanItems .beforeItems (pySplitlines text)).take 40

/-- Line 426: `out["itens_descricoes"] = "\n".join(items[:40]) if items else None`. -/
def extract_itens_descricoes (text : PyStr) : Option PyStr :=
  if scanItems .beforeItems (pySplitlines text) = [] then none
  else some (joinNL (itemLines text))

/-! ### Main processing dispatch (lines 586-600) and per-document outcome -/

/-- The four branches the dispatch can select, plus the spec's vocabulary
item `structuredParse`, which the dispatch never selects (no branch of
lines 586-600 parses structured markup). -/
inductive PipeBranch
  | plainText
  | pdfText
  | imageOcr
  | fallbackOcr
  | structuredParse
deriving DecidableEq

def image_exts : List PyStr :=
  [".png".data, ".jpg".data, ".jpeg".data, ".tiff".data, ".bmp".data]

/-- Lines 587-600: branch selection from the Drive media type
(`actual_mime`), the locally detected type (`kind`) and the temp-file path. -/
def classifyBranch (actual_mime kind path : PyStr) : PipeBranch :=
  if actual_mime = "text/plain".data ∨ pyContains kind "text".data then .plainText
  else if pyContains kind "pdf".data ∨ pyEndsWith (pyLower path) ".pdf".data then .pdfText
  else if pyContains kind "image".data ∨ image_exts.any (fun e => pyEndsWith (pyLower path) e) then
    .imageOcr
  else .fallbackOcr

/-- Line 511: the sink columns of one output row. -/
def initial_columns_data : List PyStr :=
  ["timestamp_import".data, "drive_file_id".data, "file_name".data,
   "drive_mime".data, "empresa".data, "cnpj".data, "descricao_itens".data,
   "data_compra".data, "valor_total".data, "numero_nota".data, "cpf".data,
   "endereco".data]

/-- Lines 602-634: the number of result rows appended for one document and
the note written to the processed-files ledger.  The surrounding
`try/except` turns any exception into an `error: …` note, so the function is
total in the error flag and message. -/
def perDocOutcome (errored : Bool) (errMsg extracted : PyStr) : Nat × PyStr :=
  if errored then (0, "error: ".data ++ errMsg)
  else if pyStrip extracted = [] then (0, "no_text_extracted".data)
  else (1, "processed_ok".data)

/-! ### OCR page-segmentation retry (lines 164-169 and 181-184) -/

inductive PsmMode
  | psm3
  | psm6
deriving DecidableEq

/-- Per-page OCR text with the retry logic, abstracting the recognizer as an
oracle from the segmentation mode to its output: run PSM 3; when the
stripped result is empty or shorter than 50 characters, run PSM 6 and keep
that second result. -/
def ocrPageText (ocr : PsmMode → PyStr) : PyStr :=
  let txt := ocr .psm3
  if pyStrip txt = [] ∨ (pyStrip txt).length < 50 then ocr .psm6 else txt

/-- Modelled from the spec, for comparison with the code: keep the longer
non-empty of the two OCR results. -/
def longerNonEmptyOf (a b : PyStr) : PyStr :=
  if a = [] then b else if b = [] then a else if a.length < b.length then b else a

/-- `d` occurs verbatim as a contiguous substring of `t`. -/
def appearsWithin (d t : PyStr) : Prop := ∃ a b, t = a ++ d ++ b

/-! ## Lemmas -/

section Lemmas

theorem length_takeWhile_le_append (p : Char → Bool) (cs ext : PyStr) :
    (cs.takeWhile p).length ≤ ((cs ++ ext).takeWhile p).length := by
  induction cs with
  | nil => simp
  | cons c t ih =>
    by_cases hc : p c
    · simpa [List.takeWhile_cons, hc] using ih
    · simp [List.takeWhile_cons, hc]

theorem takeWhile_append_of_ne (p : Char → Bool) (cs ext : PyStr)
    (h : cs.takeWhile p ≠ cs) : (cs ++ ext).takeWhile p = cs.takeWhile p := by
  induction cs with
  | nil => simp at h
  | cons c t ih =>
    by_cases hc : p c
    · simp only [List.takeWhile_cons, hc, if_true, List.cons_append] at h ⊢
      simp only [ne_eq, List.cons.injEq, true_and] at h
      rw [ih h]
    · simp [List.takeWhile_cons, hc]

theorem takeWhile_append_of_all (p : Char → Bool) (cs ext : PyStr)
    (h : cs.takeWhile p = cs) : (cs ++ ext).takeWhile p = cs ++ ext.takeWhile p := by
  induction cs with
  | nil => simp
  | cons c t ih =>
    simp only [List.takeWhile_cons] at h ⊢
    by_cases hc : p c
    · simp only [hc, if_true] at h ⊢
      simp only [List.cons.injEq, true_and] at h
      simp [List.cons_append, List.takeWhile_cons, hc, ih h]
    · simp [hc] at h

theorem pTakeRange_eq_append {p : Char → Bool} {lo hi : Nat} {cs t r : PyStr}
    (h : pTakeRange p lo hi cs = some (t, r)) :
    cs = t ++ r ∧ lo ≤ t.length ∧ t.length ≤ hi := by
  simp only [pTakeRange] at h
  split at h
  · rename_i hcond
    simp only [Option.some.injEq, Prod.mk.injEq] at h
    obtain ⟨ht, hr⟩ := h
    subst ht
    have hpre : (cs.takeWhile p).take hi <+: cs :=
      Trans.trans ( List.take_prefix hi (cs.takeWhile p)) ( List.takeWhile_prefix p)
    refine ⟨?_, hcond, (List.length_take _ _).le.trans (Nat.min_le_left _ _)⟩
    rw [← hr]
    conv_lhs => rw [← List.take_append_drop ((cs.takeWhile p).take hi).length cs]
    rw [← List.prefix_iff_eq_take.mp hpre]
  · exact absurd h (by simp)

theorem pTakeRange_isSome_iff {p : Char → Bool} {lo hi : Nat} {cs : PyStr} :
    (pTakeRange p lo hi cs).isSome ↔ lo ≤ min hi (cs.takeWhile p).length := by
  simp only [pTakeRange]
  split <;> rename_i hcond <;> simp_all [List.length_take, Nat.min_comm]

theorem pChar1_eq_append {p : Char → Bool} {cs t r : PyStr}
    (h : pChar1 p cs = some (t, r)) : cs = t ++ r ∧ ∃ c, t = [c] ∧ p c := by
  cases cs with
  | nil => simp [pChar1] at h
  | cons c u =>
    simp only [pChar1] at h
    split at h
    · simp only [Option.some.injEq, Prod.mk.injEq] at h
      obtain ⟨ht, hr⟩ := h
      subst ht hr
      exact ⟨rfl, c, rfl, by assumption⟩
    · simp at h

theorem pOptChar_append (p : Char → Bool) (cs : PyStr) :
    (pOptChar p cs).1 ++ (pOptChar p cs).2 = cs := by
  cases cs with
  | nil => simp [pOptChar]
  | cons c u => simp only [pOptChar]; split <;> simp

theorem pStar0_append (p : Char → Bool) (cs : PyStr) :
    (pStar0 p cs).1 ++ (pStar0 p cs).2 = cs := by
  simp [pStar0, List.takeWhile_append_dropWhile]

theorem scanSplit_eq_none_iff {m : PyStr → Option (PyStr × PyStr)} {cs : PyStr} :
    scanSplit m cs = none ↔ ∀ n, m (cs.drop n) = none := by
  induction cs with
  | nil =>
    simp only [scanSplit, List.drop_nil]
    exact ⟨fun h _ => h, fun h => h 0⟩
  | cons c t ih =>
    simp only [scanSplit]
    constructor
    · intro h n
      cases hm : m (c :: t) with
      | some x => simp [hm] at h
      | none =>
        simp only [hm] at h
        cases n with
        | zero => simpa using hm
        | succ k => exact ih.mp h k
    · intro h
      have h0 := h 0
      simp only [List.drop_zero] at h0
      simp only [h0]
      exact ih.mpr fun n => h (n + 1)

theorem scanSplit_isSome_of {m : PyStr → Option (PyStr × PyStr)} {cs : PyStr} (n : Nat)
    (h : (m (cs.drop n)).isSome) : (scanSplit m cs).isSome := by
  cases hs : scanSplit m cs with
  | some x => simp
  | none => rw [scanSplit_eq_none_iff.mp hs n] at h; simp at h

theorem scanSplit_eq_some_structure {m : PyStr → Option (PyStr × PyStr)} {cs g r : PyStr}
    (h : scanSplit m cs = some (g, r))
    (hm : ∀ u g1 r1, m u = some (g1, r1) → u = g1 ++ r1) :
    ∃ a, cs = a ++ g ++ r := by
  induction cs with
  | nil =>
    exact ⟨[], by simpa using hm [] g r (by simpa [scanSplit] using h)⟩
  | cons c t ih =>
    simp only [scanSplit] at h
    cases hmc : m (c :: t) with
    | some x =>
      rw [hmc] at h
      cases h
      exact ⟨[], by simpa using hm (c :: t) g r hmc⟩
    | none =>
      rw [hmc] at h
      obtain ⟨a, ha⟩ := ih h
      exact ⟨c :: a, by simp [ha]⟩

end Lemmas

section MatcherLemmas

theorem cnpjBodyAt_eq_append {cs g r : PyStr} (h : cnpjBodyAt cs = some (g, r)) :
    cs = g ++ r := by
  simp only [cnpjBodyAt, bind, Option.bind_eq_some] at h
  obtain ⟨⟨a, r1⟩, ha, h⟩ := h
  obtain ⟨⟨b, r3⟩, hb, h⟩ := h
  obtain ⟨⟨c3, r5⟩, hc, h⟩ := h
  obtain ⟨⟨d, r7⟩, hd, h⟩ := h
  obtain ⟨⟨e, r9⟩, he, h⟩ := h
  dsimp only at ha hb hc hd he h
  rcases hO1 : pOptChar isSepDotSlashDash r1 with ⟨s1, t1⟩
  rcases hO2 : pOptChar isSepDotSlashDash r3 with ⟨s2, t2⟩
  rcases hO3 : pOptChar isSepSlashDash r5 with ⟨s3, t3⟩
  rcases hO4 : pOptChar isDashC r7 with ⟨s4, t4⟩
  rw [hO1] at hb h
  rw [hO2] at hc h
  rw [hO3] at hd h
  rw [hO4] at he h
  dsimp only at hb hc hd he h
  simp only [Option.pure_def, Option.some.injEq, Prod.mk.injEq] at h
  obtain ⟨hg, hr⟩ := h
  subst hg hr
  have E1 : r1 = s1 ++ t1 := by rw [← pOptChar_append isSepDotSlashDash r1, hO1]
  have E2 : r3 = s2 ++ t2 := by rw [← pOptChar_append isSepDotSlashDash r3, hO2]
  have E3 : r5 = s3 ++ t3 := by rw [← pOptChar_append isSepSlashDash r5, hO3]
  have E4 : r7 = s4 ++ t4 := by rw [← pOptChar_append isDashC r7, hO4]
  rw [(pTakeRange_eq_append ha).1, E1, (pTakeRange_eq_append hb).1, E2,
    (pTakeRange_eq_append hc).1, E3, (pTakeRange_eq_append hd).1, E4,
    (pTakeRange_eq_append he).1]
  simp [List.append_assoc]

theorem pTakeRange_append_of_rest_ne {p : Char → Bool} {lo hi : Nat} {cs t r ext : PyStr}
    (h : pTakeRange p lo hi cs = some (t, r)) (hr : r ≠ []) :
    pTakeRange p lo hi (cs ++ ext) = some (t, r ++ ext) := by
  simp only [pTakeRange] at h ⊢
  split at h
  · rename_i hcond
    simp only [Option.some.injEq, Prod.mk.injEq] at h
    obtain ⟨ht, hdrop⟩ := h
    subst ht
    have hlen : ((cs.takeWhile p).take hi).length < cs.length := by
      rw [← hdrop] at hr
      exact List.length_lt_of_drop_ne_nil hr
    have htw : ((cs ++ ext).takeWhile p).take hi = (cs.takeWhile p).take hi := by
      by_cases hall : cs.takeWhile p = cs
      · rw [takeWhile_append_of_all p cs ext hall, hall]
        have hhi : hi ≤ cs.length := by
          rw [hall] at hlen
          simp only [List.length_take] at hlen
          omega
        rw [List.take_append_of_le_length hhi]
      · rw [takeWhile_append_of_ne p cs ext hall]
    rw [htw, if_pos hcond, List.drop_append_of_le_length hlen.le, hdrop]
  · exact absurd h (by simp)

theorem pTakeRange_isSome_append {p : Char → Bool} {lo hi : Nat} {cs ext : PyStr}
    (h : (pTakeRange p lo hi cs).isSome) : (pTakeRange p lo hi (cs ++ ext)).isSome := by
  rw [pTakeRange_isSome_iff] at h ⊢
  have := length_takeWhile_le_append p cs ext
  omega

theorem pChar1_ne_nil {p : Char → Bool} {cs : PyStr} {x : PyStr × PyStr}
    (h : pChar1 p cs = some x) : cs ≠ [] := by
  cases cs <;> simp_all [pChar1]

theorem pChar1_append {p : Char → Bool} {cs t r ext : PyStr}
    (h : pChar1 p cs = some (t, r)) : pChar1 p (cs ++ ext) = some (t, r ++ ext) := by
  cases cs with
  | nil => simp [pChar1] at h
  | cons c u =>
    simp only [pChar1, List.cons_append] at h ⊢
    split at h
    · simp_all
    · simp at h

theorem pTakeRange_rest_ne_nil {p : Char → Bool} {lo hi : Nat} {cs t r : PyStr}
    (h : pTakeRange p lo hi cs = some (t, r)) (hlo : 1 ≤ lo) : cs ≠ [] := by
  obtain ⟨hcs, hlen, -⟩ := pTakeRange_eq_append h
  intro hnil
  rw [hnil] at hcs
  have := congrArg List.length hcs
  simp at this
  omega

theorem pOptTime_append (cs : PyStr) : (pOptTime cs).1 ++ (pOptTime cs).2 = cs := by
  unfold pOptTime
  split
  · rename_i x hx
    obtain ⟨xa, xb⟩ := x
    simp only [bind, Option.bind_eq_some] at hx
    obtain ⟨⟨w, r1⟩, h1, hx⟩ := hx
    obtain ⟨⟨hh, r2⟩, h2, hx⟩ := hx
    obtain ⟨⟨c1, r3⟩, h3, hx⟩ := hx
    obtain ⟨⟨mi, r4⟩, h4, hx⟩ := hx
    dsimp only at h1 h2 h3 h4 hx
    split at hx
    · rename_i y hy
      obtain ⟨ya, yb⟩ := y
      simp only [bind, Option.bind_eq_some] at hy
      obtain ⟨⟨c2, r5⟩, h5, hy⟩ := hy
      obtain ⟨⟨s2, r6⟩, h6, hy⟩ := hy
      dsimp only at h5 h6 hy
      simp only [Option.pure_def, Option.some.injEq, Prod.mk.injEq] at hy hx
      obtain ⟨hy1, hy2⟩ := hy
      obtain ⟨hx1, hx2⟩ := hx
      subst hy1 hy2 hx1 hx2
      rw [(pTakeRange_eq_append h1).1, (pTakeRange_eq_append h2).1,
        (pChar1_eq_append h3).1, (pTakeRange_eq_append h4).1,
        (pChar1_eq_append h5).1, (pTakeRange_eq_append h6).1]
      simp [List.append_assoc]
    · simp only [Option.pure_def, Option.some.injEq, Prod.mk.injEq] at hx
      obtain ⟨hx1, hx2⟩ := hx
      subst hx1 hx2
      rw [(pTakeRange_eq_append h1).1, (pTakeRange_eq_append h2).1,
        (pChar1_eq_append h3).1, (pTakeRange_eq_append h4).1]
      simp [List.append_assoc]
  · simp

theorem dmyAt_eq_append {cs g r : PyStr} (h : dmyAt cs = some (g, r)) : cs = g ++ r := by
  simp only [dmyAt, bind, Option.bind_eq_some] at h
  obtain ⟨⟨d1, r1⟩, h1, h⟩ := h
  obtain ⟨⟨s1, r2⟩, h2, h⟩ := h
  obtain ⟨⟨d2, r3⟩, h3, h⟩ := h
  obtain ⟨⟨s2, r4⟩, h4, h⟩ := h
  obtain ⟨⟨y, r5⟩, h5, h⟩ := h
  dsimp only at h1 h2 h3 h4 h5 h
  simp only [Option.pure_def, Option.some.injEq, Prod.mk.injEq] at h
  obtain ⟨hg, hr⟩ := h
  subst hg hr
  rw [(pTakeRange_eq_append h1).1, (pChar1_eq_append h2).1, (pTakeRange_eq_append h3).1,
    (pChar1_eq_append h4).1, (pTakeRange_eq_append h5).1]
  conv_lhs => rw [← pOptTime_append r5]
  simp [List.append_assoc]

theorem ymdAt_eq_append {cs g r : PyStr} (h : ymdAt cs = some (g, r)) : cs = g ++ r := by
  simp only [ymdAt, bind, Option.bind_eq_some] at h
  obtain ⟨⟨y, r1⟩, h1, h⟩ := h
  obtain ⟨⟨d1, r2⟩, h2, h⟩ := h
  obtain ⟨⟨mo, r3⟩, h3, h⟩ := h
  obtain ⟨⟨d2, r4⟩, h4, h⟩ := h
  obtain ⟨⟨d, r5⟩, h5, h⟩ := h
  dsimp only at h1 h2 h3 h4 h5 h
  simp only [Option.pure_def, Option.some.injEq, Prod.mk.injEq] at h
  obtain ⟨hg, hr⟩ := h
  subst hg hr
  rw [(pTakeRange_eq_append h1).1, (pChar1_eq_append h2).1, (pTakeRange_eq_append h3).1,
    (pChar1_eq_append h4).1, (pTakeRange_eq_append h5).1]
  simp [List.append_assoc]

theorem dateBodyAt_eq_append {cs g r : PyStr} (h : dateBodyAt cs = some (g, r)) :
    cs = g ++ r := by
  unfold dateBodyAt at h
  cases hd : dmyAt cs with
  | some x => rw [hd] at h; cases h; exact dmyAt_eq_append hd
  | none => rw [hd] at h; exact ymdAt_eq_append h

theorem dmyAt_isSome_append {cs ext : PyStr} (h : (dmyAt cs).isSome) :
    (dmyAt (cs ++ ext)).isSome := by
  obtain ⟨⟨g, r⟩, hx⟩ := Option.isSome_iff_exists.mp h
  simp only [dmyAt, bind, Option.bind_eq_some] at hx
  obtain ⟨⟨d1, r1⟩, h1, hx⟩ := hx
  obtain ⟨⟨s1, r2⟩, h2, hx⟩ := hx
  obtain ⟨⟨d2, r3⟩, h3, hx⟩ := hx
  obtain ⟨⟨s2, r4⟩, h4, hx⟩ := hx
  obtain ⟨⟨y, r5⟩, h5, hx⟩ := hx
  dsimp only at h1 h2 h3 h4 h5 hx
  simp only [dmyAt, bind]
  rw [@pTakeRange_append_of_rest_ne _ _ _ _ _ _ ext h1 (pChar1_ne_nil h2), Option.some_bind]
  dsimp only
  rw [pChar1_append h2, Option.some_bind]
  dsimp only
  rw [@pTakeRange_append_of_rest_ne _ _ _ _ _ _ ext h3 (pChar1_ne_nil h4), Option.some_bind]
  dsimp only
  rw [pChar1_append h4, Option.some_bind]
  dsimp only
  obtain ⟨⟨y2, r52⟩, h52⟩ :=
    Option.isSome_iff_exists.mp
      (@pTakeRange_isSome_append _ _ _ _ ext (Option.isSome_iff_exists.mpr ⟨_, h5⟩))
  rw [h52, Option.some_bind]
  simp

theorem ymdAt_isSome_append {cs ext : PyStr} (h : (ymdAt cs).isSome) :
    (ymdAt (cs ++ ext)).isSome := by
  obtain ⟨⟨g, r⟩, hx⟩ := Option.isSome_iff_exists.mp h
  simp only [ymdAt, bind, Option.bind_eq_some] at hx
  obtain ⟨⟨y, r1⟩, h1, hx⟩ := hx
  obtain ⟨⟨d1, r2⟩, h2, hx⟩ := hx
  obtain ⟨⟨mo, r3⟩, h3, hx⟩ := hx
  obtain ⟨⟨d2, r4⟩, h4, hx⟩ := hx
  obtain ⟨⟨d, r5⟩, h5, hx⟩ := hx
  dsimp only at h1 h2 h3 h4 h5 hx
  simp only [ymdAt, bind]
  rw [@pTakeRange_append_of_rest_ne _ _ _ _ _ _ ext h1 (pChar1_ne_nil h2), Option.some_bind]
  dsimp only
  rw [pChar1_append h2, Option.some_bind]
  dsimp only
  rw [@pTakeRange_append_of_rest_ne _ _ _ _ _ _ ext h3 (pChar1_ne_nil h4), Option.some_bind]
  dsimp only
  rw [pChar1_append h4, Option.some_bind]
  dsimp only
  obtain ⟨⟨y2, r52⟩, h52⟩ :=
    Option.isSome_iff_exists.mp
      (@pTakeRange_isSome_append _ _ _ _ ext (Option.isSome_iff_exists.mpr ⟨_, h5⟩))
  rw [h52, Option.some_bind]
  simp

theorem dateBodyAt_isSome_append {cs ext : PyStr} (h : (dateBodyAt cs).isSome) :
    (dateBodyAt (cs ++ ext)).isSome := by
  unfold dateBodyAt at h ⊢
  cases hd : dmyAt (cs ++ ext) with
  | some x => simp
  | none =>
    cases hc : dmyAt cs with
    | some x =>
      have hsome : (dmyAt cs).isSome := by simp [hc]
      have := @dmyAt_isSome_append cs ext hsome
      simp [hd] at this
    | none =>
      rw [hc] at h
      exact @ymdAt_isSome_append cs ext h

theorem dateSearch_none_slice {t : PyStr} (h : dateSearch t = none) (idx len : Nat) :
    dateSearch ((t.drop idx).take len) = none := by
  simp only [dateSearch, scanFor, Option.map_eq_none'] at h ⊢
  rw [scanSplit_eq_none_iff] at h ⊢
  intro n
  cases hb : dateBodyAt (((t.drop idx).take len).drop n) with
  | none => rfl
  | some x =>
    exfalso
    have hs : (dateBodyAt (((t.drop idx).take len).drop n)).isSome := by simp [hb]
    rw [List.drop_take, List.drop_drop] at hs
    have hext :=
      @dateBodyAt_isSome_append ((t.drop (idx + n)).take (len - n))
        ((t.drop (idx + n)).drop (len - n)) hs
    rw [List.take_append_drop] at hext
    rw [h (idx + n)] at hext
    simp at hext

theorem kwDateLoop_none {t : PyStr} (h : dateSearch t = none) (kws : List PyStr) :
    kwDateLoop kws t = none := by
  induction kws with
  | nil => rfl
  | cons kw rest ih =>
    cases hf : pyFind (pyUpper t) kw with
    | none => simp only [kwDateLoop, hf]; exact ih
    | some idx =>
      simp only [kwDateLoop, hf, dateSearch_none_slice h idx 60]
      exact ih

theorem extract_data_compra_none_of_no_date {t : PyStr} (h : dateSearch t = none) :
    extract_data_compra t = none := by
  simp only [extract_data_compra, kwDateLoop_none h date_keywords, h]

theorem scanItems_done (ls : List PyStr) : scanItems .doneItems ls = [] := by
  induction ls with
  | nil => rfl
  | cons l ls ih => simpa [scanItems, capturesLine, stepState] using ih

theorem scanItems_before_skip {pre : List PyStr} (rest : List PyStr)
    (h : ∀ l ∈ pre, isStartLine l = false) :
    scanItems .beforeItems (pre ++ rest) = scanItems .beforeItems rest := by
  induction pre with
  | nil => rfl
  | cons l pre ih =>
    have hl := h l (by simp)
    simp only [List.cons_append, scanItems, capturesLine, stepState, hl, if_false,
      Bool.false_eq_true, List.nil_append]
    exact ih fun x hx => h x (by simp [hx])

theorem scanItems_in_stop {xs : List PyStr} (post : List PyStr)
    (h : ∃ e ∈ xs, isEndLine e = true) :
    scanItems .inItems (xs ++ post) = scanItems .inItems xs := by
  induction xs with
  | nil => simp at h
  | cons x xs ih =>
    by_cases hx : isEndLine x
    · simp [scanItems, capturesLine, stepState, hx, scanItems_done]
    · obtain ⟨e, he, hee⟩ := h
      have he' : e ∈ xs := by
        rcases List.mem_cons.mp he with h1 | h2
        · rw [h1] at hee; exact absurd hee (by simp [hx])
        · exact h2
      simp only [List.cons_append, scanItems, capturesLine, stepState, hx, if_false,
        Bool.false_eq_true]
      exact congrArg _ (ih ⟨e, he', hee⟩)

theorem stateRank_mono (s : ScanState) (l : PyStr) : stateRank s ≤ stateRank (stepState s l) := by
  cases s with
  | beforeItems => cases hs : isStartLine l <;> simp [stepState, hs, stateRank]
  | inItems => cases hs : isEndLine l <;> simp [stepState, hs, stateRank]
  | doneItems => simp [stepState, stateRank]

end MatcherLemmas

section FloatLemmas

theorem digitsValAux_nil (v : Nat) : digitsValAux v [] = v := rfl

theorem digitsVal_nil : digitsVal [] = 0 := rfl

theorem digitsValAux_step (v : Nat) (c : Char) (rest : PyStr) :
    digitsValAux v (c :: rest) = digitsValAux (10 * v + digitVal c) rest := rfl

theorem digitsVal_cons (c : Char) (rest : PyStr) :
    digitsVal (c :: rest) = digitsValAux (digitVal c) rest := by
  rw [digitsVal, digitsValAux_step]
  norm_num

theorem digitsValAux_eq (cs : PyStr) :
    ∀ v, digitsValAux v cs = v * 10 ^ cs.length + digitsVal cs := by
  induction cs with
  | nil => intro v; rw [digitsValAux_nil, digitsVal_nil]; simp
  | cons c rest ih =>
    intro v
    rw [digitsVal_cons, digitsValAux_step, ih, ih (digitVal c), List.length_cons]
    ring

theorem parseDigRun_cons_digit {c : Char} {rest : PyStr} (hc : isDigitC c = true) :
    parseDigRun (c :: rest) = some (parseDigRunAux (digitVal c) 1 false rest) := by
  rw [parseDigRun]
  simp [hc]

theorem isDigitC_ne {c d : Char} (h : isDigitC c = true) (hd : isDigitC d = false) : c ≠ d := by
  intro he
  rw [he, hd] at h
  exact absurd h (by simp)

theorem isDigitC_not_space {c : Char} (h : isDigitC c = true) : isPySpace c = false := by
  simp only [isPySpace, decide_eq_false_iff_not]
  rintro (rfl | rfl | rfl | rfl | rfl | rfl | rfl) <;> exact absurd h (by decide)

theorem pyLowerChar_digit {c : Char} (h : isDigitC c = true) : pyLowerChar c = c := by
  simp only [isDigitC, decide_eq_true_eq] at h
  unfold pyLowerChar
  rw [if_neg (by omega), if_neg (by omega)]

theorem dropWhile_eq_self_of_none {p : Char → Bool} {cs : PyStr}
    (h : ∀ c ∈ cs, p c = false) : cs.dropWhile p = cs := by
  cases cs with
  | nil => rfl
  | cons c t => simp [List.dropWhile_cons, h c (by simp)]

theorem pyStrip_of_no_space {cs : PyStr} (h : ∀ c ∈ cs, isPySpace c = false) :
    pyStrip cs = cs := by
  unfold pyStrip
  rw [dropWhile_eq_self_of_none h, dropWhile_eq_self_of_none (by simpa using h),
    List.reverse_reverse]

theorem parseDigRunAux_step {v n : Nat} {c : Char} {rest : PyStr} (hc : isDigitC c = true) :
    parseDigRunAux v n false (c :: rest) =
      parseDigRunAux (10 * v + digitVal c) (n + 1) false rest := by
  rw [parseDigRunAux]
  simp [hc]

theorem parseDigRunAux_digits {cs : PyStr} (h : ∀ c ∈ cs, isDigitC c = true) :
    ∀ v n, parseDigRunAux v n false cs = (digitsValAux v cs, n + cs.length, []) := by
  induction cs with
  | nil => intro v n; rfl
  | cons c rest ih =>
    intro v n
    have hc := h c (by simp)
    rw [parseDigRunAux_step hc, digitsValAux_step, ih fun x hx => h x (by simp [hx])]
    simp only [List.length_cons, Prod.mk.injEq, true_and, and_true]
    omega

theorem digitsValAux_append (a b : PyStr) :
    ∀ v, digitsValAux v (a ++ b) = digitsValAux (digitsValAux v a) b := by
  induction a with
  | nil => intro v; rfl
  | cons c rest ih =>
    intro v
    rw [List.cons_append, digitsValAux_step, digitsValAux_step]
    exact ih _

theorem digitsVal_append (a b : PyStr) :
    digitsVal (a ++ b) = digitsVal a * 10 ^ b.length + digitsVal b := by
  rw [digitsVal, digitsValAux_append, digitsValAux_eq, ← digitsVal]

theorem floatVal_eq (neg : Bool) (iv fv fc : Nat) (e : Int) :
    floatVal neg iv fv fc e =
      (if neg then (-1 : ℚ) else 1) * ((iv : ℚ) + (fv : ℚ) / 10 ^ fc) * 10 ^ e := by
  have h10 : ((10 : ℚ) ^ fc) ≠ 0 := by positivity
  simp only [floatVal]
  by_cases he : 0 ≤ e
  · rw [if_pos he, Rat.divInt_eq_div]
    have hq : (10 : ℚ) ^ e = 10 ^ e.toNat := by
      rw [← zpow_natCast]
      congr 1
      omega
    rw [hq]
    push_cast
    cases neg <;> simp only [Bool.false_eq_true, if_false, if_true] <;> field_simp
  · rw [if_neg he, Rat.divInt_eq_div]
    have h10b : ((10 : ℚ) ^ (-e).toNat) ≠ 0 := by positivity
    have hq : (10 : ℚ) ^ e = ((10 : ℚ) ^ (-e).toNat)⁻¹ := by
      rw [← zpow_natCast, show (((-e).toNat : Int)) = -e by omega, zpow_neg, inv_inv]
    rw [hq]
    push_cast
    cases neg <;> simp only [Bool.false_eq_true, if_false, if_true] <;> field_simp

theorem floatVal_nat (iv : Nat) : floatVal false iv 0 0 0 = (iv : ℚ) := by
  rw [floatVal_eq]
  norm_num

theorem floatFinish_nil (neg : Bool) (iv fv fc : Nat) :
    floatFinish neg iv fv fc [] = some (.fin (floatVal neg iv fv fc 0)) := rfl

theorem pyFloatOfStr_digits {cs : PyStr} (hne : cs ≠ []) (h : ∀ c ∈ cs, isDigitC c = true) :
    pyFloatOfStr cs = some (.fin (digitsVal cs)) := by
  obtain ⟨c, rest, rfl⟩ := List.exists_cons_of_ne_nil hne
  have hc : isDigitC c = true := h c (by simp)
  have hrest : ∀ x ∈ rest, isDigitC x = true := fun x hx => h x (by simp [hx])
  have hstrip : pyStrip (c :: rest) = c :: rest :=
    pyStrip_of_no_space fun x hx => isDigitC_not_space (h x hx)
  have e1 : ((c :: rest).head? = some '+') = False := by
    simp only [List.head?_cons, Option.some.injEq]
    exact eq_false (isDigitC_ne hc (by decide))
  have e2 : ((c :: rest).head? = some '-') = False := by
    simp only [List.head?_cons, Option.some.injEq]
    exact eq_false (isDigitC_ne hc (by decide))
  have hlc : pyLowerChar c = c := pyLowerChar_digit hc
  have hmap : (c :: rest).map pyLowerChar = c :: rest.map pyLowerChar := by
    simp [hlc]
  have einf : ((c :: rest).map pyLowerChar = "inf".data ∨
      (c :: rest).map pyLowerChar = "infinity".data) = False := by
    apply eq_false
    rw [hmap]
    rintro (hq | hq)
    · rw [show "inf".data = 'i' :: 'n' :: 'f' :: [] from rfl] at hq
      injection hq with hq1 _
      exact isDigitC_ne hc (by decide) hq1
    · rw [show "infinity".data = 'i' :: 'n' :: 'f' :: 'i' :: 'n' :: 'i' :: 't' :: 'y' :: [] from rfl] at hq
      injection hq with hq1 _
      exact isDigitC_ne hc (by decide) hq1
  have enan : ((c :: rest).map pyLowerChar = "nan".data) = False := by
    apply eq_false
    rw [hmap]
    intro hq
    rw [show "nan".data = 'n' :: 'a' :: 'n' :: [] from rfl] at hq
    injection hq with hq1 _
    exact isDigitC_ne hc (by decide) hq1
  unfold pyFloatOfStr
  rw [hstrip]
  simp only [e1, e2, if_false, einf, enan]
  rw [parseDigRun_cons_digit hc, parseDigRunAux_digits hrest]
  dsimp only
  rw [floatFinish_nil, digitsVal_cons, floatVal_nat]

theorem pySubMoneyR_of_no_R {cs : PyStr} (h : ∀ c ∈ cs, c ≠ 'R' ∧ c ≠ 'r') :
    pySubMoneyR cs = cs := by
  unfold pySubMoneyR
  induction cs with
  | nil => rfl
  | cons c t ih =>
    have hc := h c (by simp)
    simp only [subMoneyAux]
    rw [if_neg (by simp), if_neg (by simp), if_neg (by simpa using hc),
      ih fun x hx => h x (by simp [hx])]

theorem normalize_money_digits_dot {i f : PyStr} (hi : i ≠ [])
    (hdi : ∀ c ∈ i, isDigitC c = true) (hdf : ∀ c ∈ f, isDigitC c = true) :
    normalize_money (i ++ '.' :: f) = some (.fin (digitsVal (i ++ f))) := by
  have hne : i ++ '.' :: f ≠ [] := by simp
  unfold normalize_money
  rw [if_neg hne]
  unfold moneyTransform
  have hspace : ∀ c ∈ i ++ '.' :: f, isPySpace c = false := by
    intro c hcm
    rcases List.mem_append.mp hcm with hl | hr
    · exact isDigitC_not_space (hdi c hl)
    · rcases List.mem_cons.mp hr with rfl | hf2
      · decide
      · exact isDigitC_not_space (hdf c hf2)
  have hnoR : ∀ c ∈ i ++ '.' :: f, c ≠ 'R' ∧ c ≠ 'r' := by
    intro c hcm
    rcases List.mem_append.mp hcm with hl | hr
    · exact ⟨isDigitC_ne (hdi c hl) (by decide), isDigitC_ne (hdi c hl) (by decide)⟩
    · rcases List.mem_cons.mp hr with rfl | hf2
      · exact ⟨by decide, by decide⟩
      · exact ⟨isDigitC_ne (hdf c hf2) (by decide), isDigitC_ne (hdf c hf2) (by decide)⟩
  rw [pyStrip_of_no_space hspace, pySubMoneyR_of_no_R hnoR]
  have hfilter : (i ++ '.' :: f).filter (fun c => decide (c ≠ '.')) = i ++ f := by
    rw [List.filter_append, List.filter_cons]
    have hdot : (decide ('.' ≠ '.')) = false := by decide
    rw [hdot]
    simp only [Bool.false_eq_true, if_false]
    congr 1
    · apply List.filter_eq_self.mpr
      intro a ha
      simpa using isDigitC_ne (hdi a ha) (by decide)
    · apply List.filter_eq_self.mpr
      intro a ha
      simpa using isDigitC_ne (hdf a ha) (by decide)
  rw [hfilter]
  have hmapc : (i ++ f).map (fun c => if c = ',' then '.' else c) = i ++ f := by
    have hcong : ∀ a ∈ i ++ f, (fun c => if c = ',' then '.' else c) a = id a := by
      intro a ha
      rcases List.mem_append.mp ha with hl | hr
      · have hcne : a ≠ ',' := isDigitC_ne (hdi a hl) (by decide)
        simp [hcne]
      · have hcne : a ≠ ',' := isDigitC_ne (hdf a hr) (by decide)
        simp [hcne]
    rw [List.map_congr_left hcong, List.map_id]
  rw [hmapc]
  refine pyFloatOfStr_digits (by simp [hi]) ?_
  intro a ha
  rcases List.mem_append.mp ha with hl | hr
  · exact hdi a hl
  · exact hdf a hr

theorem normalize_money_eq_none_iff (s : PyStr) :
    normalize_money s = none ↔ (s = [] ∨ pyFloatOfStr (moneyTransform s) = none) := by
  unfold normalize_money
  by_cases h : s = [] <;> simp [h]

theorem kwTotalLoop_none_of_no_kw {t : PyStr} {kws : List PyStr}
    (h : ∀ kw ∈ kws, pyFind (pyUpper t) kw = none) : kwTotalLoop kws t = none := by
  induction kws with
  | nil => rfl
  | cons kw rest ih =>
    simp only [kwTotalLoop, h kw (by simp)]
    exact ih fun x hx => h x (by simp [hx])

end FloatLemmas

section AppearLemmas

theorem dateSearch_some_appears {s d : PyStr} (h : dateSearch s = some d) :
    appearsWithin d s := by
  simp only [dateSearch, scanFor, Option.map_eq_some'] at h
  obtain ⟨⟨g, r⟩, hg, hd⟩ := h
  dsimp only at hd
  subst hd
  obtain ⟨a, ha⟩ := scanSplit_eq_some_structure hg fun u g1 r1 hm => dateBodyAt_eq_append hm
  exact ⟨a, r, ha⟩

theorem extract_cnpj_appears {t d : PyStr} (h : extract_cnpj t = some d) :
    appearsWithin d t := by
  simp only [extract_cnpj, scanFor, Option.map_eq_some'] at h
  obtain ⟨⟨g, r⟩, hg, hd⟩ := h
  dsimp only at hd
  subst hd
  obtain ⟨a, ha⟩ := scanSplit_eq_some_structure hg fun u g1 r1 hm => cnpjBodyAt_eq_append hm
  exact ⟨a, r, ha⟩

theorem appearsWithin_slice {d t : PyStr} (idx len : Nat)
    (h : appearsWithin d ((t.drop idx).take len)) : appearsWithin d t := by
  obtain ⟨a, b, hab⟩ := h
  refine ⟨t.take idx ++ a, b ++ ((t.drop idx).drop len), ?_⟩
  conv_lhs => rw [← List.take_append_drop idx t]
  conv_lhs => rw [← List.take_append_drop len (t.drop idx)]
  rw [hab]
  simp [List.append_assoc]

theorem kwDateLoop_some_appears {t d : PyStr} {kws : List PyStr}
    (h : kwDateLoop kws t = some d) : appearsWithin d t := by
  induction kws with
  | nil => simp [kwDateLoop] at h
  | cons kw rest ih =>
    rw [kwDateLoop] at h
    cases hf : pyFind (pyUpper t) kw with
    | none => rw [hf] at h; exact ih h
    | some idx =>
      rw [hf] at h
      dsimp only at h
      cases hs : dateSearch ((t.drop idx).take 60) with
      | none => rw [hs] at h; exact ih h
      | some d2 =>
        rw [hs] at h
        cases h
        exact appearsWithin_slice idx 60 (dateSearch_some_appears hs)

theorem extract_data_compra_appears {t d : PyStr} (h : extract_data_compra t = some d) :
    appearsWithin d t := by
  rw [extract_data_compra] at h
  cases hk : kwDateLoop date_keywords t with
  | some d2 => rw [hk] at h; cases h; exact kwDateLoop_some_appears hk
  | none => rw [hk] at h; exact dateSearch_some_appears h

theorem error_note_ne (e : PyStr) : "error: ".data ++ e ≠ "unsupported_format".data := by
  intro h
  rw [show ("error: ".data : PyStr) = 'e' :: "rror: ".data from rfl,
    show ("unsupported_format".data : PyStr) = 'u' :: "nsupported_format".data from rfl,
    List.cons_append] at h
  injection h with h1 _
  exact absurd h1 (by decide)

end AppearLemmas

/-! ## Claims -/

/-- C1 (counterexample): for a well-formed XML fiscal document (detected
mime `text/xml`), the dispatch of lines 586-600 takes the plain-text branch,
not a structured-parse path, and the output row schema has no
`metodo_extracao` or `confidence` column — refuting the claimed structured
row with confidence 1.0. -/
theorem C1_counterexample :
    classifyBranch "text/xml".data "text/xml".data "/tmp/tmp12345.bin".data =
      PipeBranch.plainText ∧
    PipeBranch.plainText ≠ PipeBranch.structuredParse ∧
    ¬ "metodo_extracao".data ∈ initial_columns_data ∧
    ¬ "confidence".data ∈ initial_columns_data :=
  ⟨by decide, by decide, by decide, by decide⟩

/-- C1 (amended): the pipeline has no structured-parse path: no inputs make
the dispatch select `structuredParse`; an XML document whose detected mime
is `text/xml` takes the plain-text branch and is handled by the heuristic
extractor; output rows carry no extraction-method or confidence field. -/
theorem C1_theorem :
    (∀ actual_mime kind path : PyStr,
      classifyBranch actual_mime kind path ≠ PipeBranch.structuredParse) ∧
    classifyBranch "text/xml".data "text/xml".data "/tmp/tmp12345.bin".data =
      PipeBranch.plainText ∧
    ¬ "metodo_extracao".data ∈ initial_columns_data ∧
    ¬ "confidence".data ∈ initial_columns_data := by
  refine ⟨?_, by decide, by decide, by decide⟩
  intro am k p
  unfold classifyBranch
  split
  · decide
  · split
    · decide
    · split <;> decide

/-- C2 (counterexample): the cnpj field stores the raw CNPJ_RE group-1 match
verbatim: on a text containing "12.345.678/0001-95" the stored value keeps
its dots, slash and dash — it is not all digits and is not the digits-only
"12345678000195" the claim requires. -/
theorem C2_counterexample :
    extract_cnpj "CNPJ: 12.345.678/0001-95".data = some "12.345.678/0001-95".data ∧
    ¬ "12.345.678/0001-95".data.all isDigitC = true ∧
    extract_cnpj "CNPJ: 12.345.678/0001-95".data ≠ some "12345678000195".data :=
  ⟨by decide, by decide, by decide⟩

/-- C2 (amended): no tax-id normalization exists in the code: whatever the
cnpj field stores is a substring of the input text taken verbatim
(punctuation included), as on the concrete input "CNPJ: 12.345.678/0001-95". -/
theorem C2_theorem :
    (∀ t d : PyStr, extract_cnpj t = some d → appearsWithin d t) ∧
    extract_cnpj "CNPJ: 12.345.678/0001-95".data = some "12.345.678/0001-95".data :=
  ⟨fun t d h => extract_cnpj_appears h, by decide⟩

/-- C2 (witness): the amended theorem applied at the concrete input. -/
theorem C2_witness :
    appearsWithin "12.345.678/0001-95".data "CNPJ: 12.345.678/0001-95".data :=
  C2_theorem.1 _ _ (by decide)

/-- C3: scenario B — a text containing "TOTAL GERAL R$ 1.500,00" and no
other currency token yields total 1500.00; when no total-label keyword
occurs in the text, the total is the maximum of all normalized
currency-shaped numbers of the whole text; and when the first label
"VALOR TOTAL" is found and its 150-character window yields a normalizable
currency value, that value is the total. -/
theorem C3_theorem :
    extract_valor_total "TOTAL GERAL R$ 1.500,00".data = some (.fin 1500) ∧
    (∀ t : PyStr, (∀ kw ∈ total_keywords, pyFind (pyUpper t) kw = none) →
      extract_valor_total t = pyMaxList ((valFindAll t).filterMap normalize_money)) ∧
    (∀ t : PyStr, ∀ idx : Nat, ∀ g : PyStr, ∀ v : PyFloat,
      pyFind (pyUpper t) "VALOR TOTAL".data = some idx →
      valSearch ((t.drop idx).take 150) = some g →
      normalize_money g = some v →
      extract_valor_total t = some v) := by
  refine ⟨by decide, ?_, ?_⟩
  · intro t h
    unfold extract_valor_total
    rw [kwTotalLoop_none_of_no_kw h]
  · intro t idx g v h1 h2 h3
    unfold extract_valor_total
    simp only [total_keywords, kwTotalLoop, h1, h2, h3]

/-- C3 (witness): both hypothesised parts of the theorem applied at
concrete inputs. -/
theorem C3_witness :
    extract_valor_total "sem valores aqui".data =
      pyMaxList ((valFindAll "sem valores aqui".data).filterMap normalize_money) ∧
    extract_valor_total "abc VALOR TOTAL R$ 2,50 xyz".data =
      some (.fin (Rat.divInt 250 100)) := by
  constructor
  · exact C3_theorem.2.1 _ (by decide)
  · exact C3_theorem.2.2 _ 4 "2,50".data (.fin (Rat.divInt 250 100)) (by decide) (by decide)
      (by decide)

/-- C4: if no date pattern matches anywhere in the text, data_compra is
null; a keyword-anchored date is stored in preference to the whole-text
fallback; concretely, on "01/01/2020 e DATA: 25/12/2021" the anchored
"25/12/2021" is stored although the unanchored search finds the earlier
"01/01/2020". -/
theorem C4_theorem :
    (∀ t : PyStr, dateSearch t = none → extract_data_compra t = none) ∧
    (∀ t d : PyStr, kwDateLoop date_keywords t = some d → extract_data_compra t = some d) ∧
    extract_data_compra "01/01/2020 e DATA: 25/12/2021".data = some "25/12/2021".data ∧
    dateSearch "01/01/2020 e DATA: 25/12/2021".data = some "01/01/2020".data := by
  refine ⟨fun t h => extract_data_compra_none_of_no_date h, ?_, by decide, by decide⟩
  intro t d h
  unfold extract_data_compra
  rw [h]

/-- C4 (witness): the two hypothesised parts applied at concrete inputs. -/
theorem C4_witness :
    extract_data_compra "sem nenhuma data aqui".data = none ∧
    extract_data_compra "01/01/2020 e DATA: 25/12/2021".data = some "25/12/2021".data := by
  constructor
  · exact C4_theorem.1 _ (by decide)
  · exact C4_theorem.2.1 _ _ (by decide)

/-- C5 (counterexample): on "Data: 05/01/2024" the stored date is the raw
matched substring "05/01/2024", not the ISO form "2024-01-05" the claim
requires for a successfully day-first-parseable date. -/
theorem C5_counterexample :
    extract_data_compra "Data: 05/01/2024".data = some "05/01/2024".data ∧
    "05/01/2024".data ≠ "2024-01-05".data ∧
    extract_data_compra "Data: 05/01/2024".data ≠ some "2024-01-05".data :=
  ⟨by decide, by decide, by decide⟩

/-- C5 (amended): the matched date substring is always stored verbatim — it
occurs contiguously in the input text; no locale parsing or ISO
normalization is performed (so a found-but-unparseable date is trivially
kept, and a parseable one is kept raw as well). -/
theorem C5_theorem :
    (∀ t d : PyStr, extract_data_compra t = some d → appearsWithin d t) ∧
    extract_data_compra "Data: 05/01/2024".data = some "05/01/2024".data :=
  ⟨fun t d h => extract_data_compra_appears h, by decide⟩

/-- C5 (witness): the amended theorem applied at the concrete input. -/
theorem C5_witness : appearsWithin "05/01/2024".data "Data: 05/01/2024".data :=
  C5_theorem.1 _ _ (by decide)

/-- C6: the item-line scan is the three-state machine
beforeItems/inItems/doneItems: lines before the first start-keyword line are
never captured; once an end-keyword line is reached in the in-items state no
later line is captured; the state rank never decreases (no transition back
to beforeItems); the absorbing done state captures nothing; and at most 40
item lines appear in the output. -/
theorem C6_theorem :
    (∀ pre rest : List PyStr, (∀ l ∈ pre, isStartLine l = false) →
      scanItems .beforeItems (pre ++ rest) = scanItems .beforeItems rest) ∧
    (∀ xs post : List PyStr, (∃ e ∈ xs, isEndLine e = true) →
      scanItems .inItems (xs ++ post) = scanItems .inItems xs) ∧
    (∀ s : ScanState, ∀ l : PyStr, stateRank s ≤ stateRank (stepState s l)) ∧
    (∀ ls : List PyStr, scanItems .doneItems ls = []) ∧
    (∀ t : PyStr, (itemLines t).length ≤ 40) := by
  refine ⟨fun pre rest h => scanItems_before_skip rest h,
    fun xs post h => scanItems_in_stop post h, stateRank_mono, scanItems_done, fun t => ?_⟩
  simp only [itemLines]
  exact List.length_take_le 40 (scanItems .beforeItems (pySplitlines t))

/-- C6 (witness): the two hypothesised parts applied at concrete line
lists: a non-start line before the section does not change the result, and
lines after an end line are ignored. -/
theorem C6_witness :
    scanItems .beforeItems ("zzz".data :: "QTD".data :: "AB 1,23".data :: "TOTAL".data :: []) =
      scanItems .beforeItems ("QTD".data :: "AB 1,23".data :: "TOTAL".data :: []) ∧
    scanItems .inItems ("TOTAL GERAL".data :: "CD 9,99".data :: []) =
      scanItems .inItems ("TOTAL GERAL".data :: []) := by
  constructor
  · exact C6_theorem.1 ["zzz".data] _ (by decide)
  · exact C6_theorem.2.1 ["TOTAL GERAL".data] ["CD 9,99".data]
      ⟨"TOTAL GERAL".data, by decide, by decide⟩

/-- C7 (counterexample): "1e2" is not a currency-shaped number (no currency
marker, no decimal comma — scientific notation), yet normalize_money
returns 100.0 rather than the null the claim requires for non-currency
input. -/
theorem C7_counterexample :
    currencyShaped "1e2".data = false ∧
    normalize_money "1e2".data = some (.fin 100) ∧
    normalize_money "1e2".data ≠ none :=
  ⟨by decide, by decide, by decide⟩

/-- C7 (amended): normalize_money("R\x24 1.234,56") = 1234.56 and
normalize_money("10,00") = 10.00; the function is total (never raises), and
it returns null exactly when the input is empty or the string left after
stripping, currency-marker removal, dot removal and comma-to-dot conversion
is not a valid Python float literal — some non-currency-shaped inputs (such
as "1e2") therefore yield a number instead of null. -/
theorem C7_theorem :
    normalize_money "R$ 1.234,56".data = some (.fin (1234.56 : ℚ)) ∧
    normalize_money "10,00".data = some (.fin 10) ∧
    (∀ s : PyStr, normalize_money s = none ↔
      s = [] ∨ pyFloatOfStr (moneyTransform s) = none) := by
  refine ⟨?_, by decide, normalize_money_eq_none_iff⟩
  rw [show (1234.56 : ℚ) = Rat.divInt 123456 100 by rw [Rat.divInt_eq_div]; norm_num]
  decide

/-- C7 (witness): the null-characterization applied at the concrete
invalid input "abc". -/
theorem C7_witness : normalize_money "abc".data = none :=
  (C7_theorem.2.2 "abc".data).mpr (Or.inr (by decide))

/-- C8 (counterexample): a .docx document (detected mime
application/vnd.openxmlformats-officedocument.wordprocessingml.document)
is not rejected: the dispatch falls back to OCR, and when OCR yields text
the document produces one row with note processed_ok — not zero rows with
an unsupported_format tag. -/
theorem C8_counterexample :
    classifyBranch
      "application/vnd.openxmlformats-officedocument.wordprocessingml.document".data
      "application/vnd.openxmlformats-officedocument.wordprocessingml.document".data
      "/tmp/tmpabcd.bin".data = PipeBranch.fallbackOcr ∧
    perDocOutcome false [] "NOTA FISCAL 123 1,00".data = (1, "processed_ok".data) ∧
    "processed_ok".data ≠ "unsupported_format".data ∧
    (1 : Nat) ≠ 0 :=
  ⟨by decide, by decide, by decide, by decide⟩

/-- C8 (amended): documents matching no classifier rule fall back to OCR
instead of being rejected; no per-document note can ever equal
"unsupported_format" (the only notes are error: …, no_text_extracted and
processed_ok); when the fallback extracts no text the document yields zero
rows with note no_text_extracted, and when it extracts text a normal row is
produced; exceptions are caught and recorded as error notes, never
propagated. -/
theorem C8_theorem :
    classifyBranch
      "application/vnd.openxmlformats-officedocument.wordprocessingml.document".data
      "application/vnd.openxmlformats-officedocument.wordprocessingml.document".data
      "/tmp/tmpabcd.bin".data = PipeBranch.fallbackOcr ∧
    (∀ errored : Bool, ∀ e extracted : PyStr,
      (perDocOutcome errored e extracted).2 ≠ "unsupported_format".data) ∧
    (∀ e : PyStr, perDocOutcome false e [] = (0, "no_text_extracted".data)) ∧
    perDocOutcome false [] "NOTA FISCAL 123 1,00".data = (1, "processed_ok".data) := by
  refine ⟨by decide, ?_, fun e => rfl, by decide⟩
  intro errored e extracted
  unfold perDocOutcome
  split
  · exact error_note_ne e
  · split
    · decide
    · decide

/-- C9 (counterexample): an oracle whose PSM-3 pass yields thirty
characters (short, so the retry triggers) and whose PSM-6 pass yields the
empty string: the code keeps the empty second result, while the claimed
"longer non-empty of the two" is the thirty-character first result. -/
theorem C9_counterexample :
    ocrPageText (fun m => match m with
      | .psm3 => List.replicate 30 'A'
      | .psm6 => []) = [] ∧
    longerNonEmptyOf (List.replicate 30 'A') [] = List.replicate 30 'A' ∧
    (List.replicate 30 'A' : PyStr) ≠ [] :=
  ⟨by decide, by decide, by decide⟩

/-- C9 (amended): when the stripped first (PSM 3) recognition result is
empty or shorter than 50 characters, recognition is retried with PSM 6 and
the second result replaces the first unconditionally — even when it is
shorter or empty; otherwise the first result is kept. -/
theorem C9_theorem :
    (∀ ocr : PsmMode → PyStr,
      ocrPageText ocr =
        if pyStrip (ocr .psm3) = [] ∨ (pyStrip (ocr .psm3)).length < 50 then ocr .psm6
        else ocr .psm3) ∧
    ocrPageText (fun m => match m with
      | .psm3 => List.replicate 30 'A'
      | .psm6 => []) = [] :=
  ⟨fun ocr => rfl, by decide⟩

/-- C10: normalize_money("10.00") equals 1000.0, not 10.0: the dot is
stripped as a thousands separator, so every dot-decimal input with two
decimals and no comma is scaled by 100. -/
theorem C10_theorem :
    normalize_money "10.00".data = some (.fin 1000) ∧
    normalize_money "10.00".data ≠ some (.fin 10) ∧
    (∀ i f : PyStr, i ≠ [] → f.length = 2 →
      (∀ c ∈ i, isDigitC c = true) → (∀ c ∈ f, isDigitC c = true) →
      normalize_money (i ++ '.' :: f) =
        some (.fin (100 * ((digitsVal i : ℚ) + (digitsVal f : ℚ) / 100)))) := by
  refine ⟨by decide, by decide, ?_⟩
  intro i f hi hf2 hdi hdf
  rw [normalize_money_digits_dot hi hdi hdf, digitsVal_append, hf2]
  congr 2
  push_cast
  ring

/-- C10 (witness): the scaling law applied at the concrete input "7.25",
which normalizes to 725 = 100 times 7.25. -/
theorem C10_witness :
    normalize_money (['7'] ++ '.' :: ['2', '5']) =
      some (.fin (100 * ((digitsVal ['7'] : ℚ) + (digitsVal ['2', '5'] : ℚ) / 100))) :=
  C10_theorem.2.2 ['7'] ['2', '5'] (by decide) (by decide) (by decide) (by decide)
